import Mathlib

/-!
# Verification of the required-reviews policy engine

A shallow embedding, in Lean 4, of the pure policy-evaluation core of
`src/main.ts`: approver-set resolution (`getPossibleApprovers`), rule
evaluation (`check`), override evaluation (`checkOverride`), approval
derivation from a chronological review list (`getApprovals`), and the
final verdict logic of `run` (`runVerdict`).

Modelling conventions:
* JavaScript objects used as string-keyed maps (`teams`, the `reviewers`
  mapping, the `reviewStatus` accumulator) are modelled as association
  lists in declaration order; `teams[t]` becomes `lookupTeam`, and the
  assignment `reviewStatus[login] = state` becomes `upsert`, which
  replaces the value in place (preserving the key's original position,
  as JavaScript objects do).
* A JavaScript `Set` built from an array is modelled as the `Finset` of
  the list's elements (`List.toFinset`); `Set.has` is membership.
* `undefined` optional fields and nullable values become `Option`.
* A thrown exception (the `teams[team].users` access on a missing team)
  is modelled by `Option` in result position: `none` means the
  JavaScript code threw and no value was produced.
* JavaScript `RegExp.test` is an external engine; it is modelled as an
  abstract boolean function `regexTest : pattern → string → Bool`
  supplied as a parameter, since the core constructs a fresh `RegExp`
  per test and only consumes the boolean result.
-/

namespace RequiredReviews

/-- `interface TeamConfiguration` of `main.ts`. -/
structure TeamConfiguration where
  description : Option String := none
  users : List String
  deriving DecidableEq, Repr

/-- `interface ReviewerConfiguration` of `main.ts`. -/
structure ReviewerConfiguration where
  description : Option String := none
  teams : Option (List String) := none
  users : Option (List String) := none
  requiredApproverCount : Nat
  deriving DecidableEq, Repr

/-- `interface OverrideCriteria` of `main.ts`. -/
structure OverrideCriteria where
  description : Option String := none
  onlyModifiedByUsers : Option (List String) := none
  onlyModifiedFileRegExs : Option (List String) := none
  deriving DecidableEq, Repr

/-- `interface Reviewers` of `main.ts`: the parsed policy document.
The `teams` mapping and the `overrides` list are optional. -/
structure Reviewers where
  teams : Option (List (String × TeamConfiguration)) := none
  reviewers : List (String × ReviewerConfiguration)
  overrides : Option (List OverrideCriteria) := none
  deriving DecidableEq, Repr

/-- Key lookup in the `teams` object: the JavaScript expression
`teams[team]`, `none` when the key is absent. -/
def lookupTeam : List (String × TeamConfiguration) → String → Option TeamConfiguration
  | [], _ => none
  | (k, tc) :: rest, t => if k = t then some tc else lookupTeam rest t

/-- The array expression `(conf.teams || []).map((team) => teams[team].users)`
inside `getPossibleApprovers`: resolve each named team, in order, to its
member list; the JavaScript access `teams[team].users` throws on the
first team absent from `teams`, which is `none` here. -/
def resolveTeams (teams : List (String × TeamConfiguration)) :
    List String → Option (List (List String))
  | [] => some []
  | t :: ts =>
    match lookupTeam teams t with
    | none => none
    | some tc =>
      match resolveTeams teams ts with
      | none => none
      | some rest => some (tc.users :: rest)

/-- `getPossibleApprovers` of `main.ts`.  Resolves a rule's named users
and named teams to the `Set` built from their concatenation.  In the
source, `teams[team].users` throws when `team` is absent from `teams`;
here that is `none`. -/
def getPossibleApprovers (conf : ReviewerConfiguration)
    (teams : List (String × TeamConfiguration)) : Option (Finset String) :=
  let namedUsers := conf.users.getD []
  match resolveTeams teams (conf.teams.getD []) with
  | none => none
  | some teamUserLists =>
    let usersFromAllNamedTeams := teamUserLists.foldl (fun left right => left ++ right) []
    some ((namedUsers ++ usersFromAllNamedTeams).toFinset)

/-- JavaScript `s.startsWith(pfx)`: the characters of `pfx` are a
prefix of the characters of `s` (a literal prefix match on the string
contents, not a glob or path-segment match). -/
def strStartsWith (s pfx : String) : Bool := pfx.data.isPrefixOf s.data

/-- The rule loop of `check` in `main.ts`, one recursive step per entry
of the `reviewers` mapping, threading the mutable `approved` flag.
A missing team referenced by a rule whose prefix matched at least one
file makes the whole evaluation throw (`none`), exactly as the source
throws out of the loop. -/
def checkGo (teams : List (String × TeamConfiguration))
    (modifiedFilepaths approvals : List String) :
    List (String × ReviewerConfiguration) → Bool → Option Bool
  | [], approved => some approved
  | (pfx, conf) :: rest, approved =>
    let affectedFiles := modifiedFilepaths.filter (fun file => strStartsWith file pfx)
    if 0 < affectedFiles.length then
      match getPossibleApprovers conf teams with
      | none => none
      | some possibleApprovers =>
        let relevantApprovals :=
          approvals.filter (fun user => decide (user ∈ possibleApprovers))
        if relevantApprovals.length < conf.requiredApproverCount then
          checkGo teams modifiedFilepaths approvals rest false
        else
          checkGo teams modifiedFilepaths approvals rest approved
    else
      checkGo teams modifiedFilepaths approvals rest approved

/-- `check` of `main.ts` (the two logging callbacks are dropped: they
only emit diagnostics and do not influence the returned boolean). -/
def check (reviewersConfig : Reviewers)
    (modifiedFilepaths approvals : List String) : Option Bool :=
  checkGo (reviewersConfig.teams.getD []) modifiedFilepaths approvals
    reviewersConfig.reviewers true

/-- `checkOverride` of `main.ts`: true iff at least one
`OverrideCriteria` is satisfied.  `regexTest pattern file` stands for
`new RegExp(pattern).test(file)`. -/
def checkOverride (regexTest : String → String → Bool)
    (overrides : List OverrideCriteria)
    (modifiedFilePaths : List String)
    (modifiedByUsers : List (Option String)) : Bool :=
  overrides.any (fun crit =>
    let maybe := true
    let maybe :=
      match crit.onlyModifiedByUsers with
      | some allowed =>
        maybe && modifiedByUsers.all (fun user =>
          match user with
          | some u => decide (u ∈ allowed)
          | none => false)
      | none => maybe
    let maybe :=
      match crit.onlyModifiedFileRegExs with
      | some pats =>
        maybe && modifiedFilePaths.all (fun modifiedFile =>
          pats.any (fun pattern => regexTest pattern modifiedFile))
      | none => maybe
    maybe)

/-- A single pull-request review as consumed by `getApprovals`: a
possibly-null user (its login) and a state string. -/
structure Review where
  user : Option String
  state : String
  deriving DecidableEq, Repr

/-- The JavaScript assignment `reviewStatus[login] = state`: replace the
value at the key's original position, or append a new entry. -/
def upsert : List (String × String) → String → String → List (String × String)
  | [], k, v => [(k, v)]
  | (k', v') :: rest, k, v =>
    if k' = k then (k, v) :: rest else (k', v') :: upsert rest k v

/-- The body of the `forEach` loop of `getApprovals` in `main.ts`:
null-user reviews and `"COMMENTED"` reviews leave `reviewStatus`
unchanged, every other review overwrites its user's recorded state. -/
def reviewStep (m : List (String × String)) (r : Review) : List (String × String) :=
  match r.user with
  | some login => if r.state ≠ "COMMENTED" then upsert m login r.state else m
  | none => m

/-- The `forEach` accumulation over the chronological review list,
starting from the empty `reviewStatus` object. -/
def reviewStatusFold (reviews : List Review) : List (String × String) :=
  reviews.foldl reviewStep []

/-- `getApprovals` of `main.ts`, starting from the chronological review
list the GitHub API returned: the logins whose final recorded state is
`"APPROVED"`. -/
def getApprovals (reviews : List Review) : List String :=
  (reviewStatusFold reviews).filterMap
    (fun kv => if kv.2 = "APPROVED" then some kv.1 else none)

/-- The verdict logic of `run` in `main.ts`: the change passes iff
`check` passed, or `check` failed and the policy's overrides (when
present) contain a satisfied one.  `none` when `check` threw. -/
def runVerdict (regexTest : String → String → Bool) (reviewersConfig : Reviewers)
    (modifiedFilepaths approvals : List String)
    (committers : List (Option String)) : Option Bool :=
  (check reviewersConfig modifiedFilepaths approvals).map (fun approved =>
    if approved then true
    else
      match reviewersConfig.overrides with
      | some ovs => checkOverride regexTest ovs modifiedFilepaths committers
      | none => false)

/-- Specification-side characterisation for approval derivation: the
state of a user's most recent review whose state is not `"COMMENTED"`
(later reviews take precedence), `none` when the user has no such
review. -/
def lastNonCommentState : List Review → String → Option String
  | [], _ => none
  | r :: rest, u =>
    match lastNonCommentState rest u with
    | some s => some s
    | none =>
      if r.user = some u ∧ r.state ≠ "COMMENTED" then some r.state else none

/-- Reading `reviewStatus[login]` from the association-list model of the
JavaScript object: the value at the first matching key. -/
def lookupStatus : List (String × String) → String → Option String
  | [], _ => none
  | (k, v) :: rest, u => if k = u then some v else lookupStatus rest u

/-! ## Basic lemmas -/

lemma length_filter_pos_iff {α : Type} (p : α → Bool) (l : List α) :
    0 < (l.filter p).length ↔ ∃ x ∈ l, p x = true := by
  induction l with
  | nil => simp
  | cons a l ih =>
    by_cases h : p a = true <;> simp [List.filter_cons, h, ih]

lemma resolveTeams_eq_none (teams : List (String × TeamConfiguration)) (t : String) :
    ∀ ts : List String, t ∈ ts → lookupTeam teams t = none →
      resolveTeams teams ts = none := by
  intro ts
  induction ts with
  | nil => intro h; cases h
  | cons t' ts ih =>
    intro hmem hnone
    rcases List.mem_cons.mp hmem with rfl | hmem
    · simp [resolveTeams, hnone]
    · cases hl : lookupTeam teams t' with
      | none => simp [resolveTeams, hl]
      | some tc => simp [resolveTeams, hl, ih hmem hnone]

lemma resolveTeams_isSome (teams : List (String × TeamConfiguration)) :
    ∀ ts : List String, (∀ t ∈ ts, (lookupTeam teams t).isSome) →
      ∃ ls, resolveTeams teams ts = some ls := by
  intro ts
  induction ts with
  | nil => exact fun _ => ⟨[], rfl⟩
  | cons t ts ih =>
    intro h
    obtain ⟨tc, htc⟩ := Option.isSome_iff_exists.mp (h t (List.mem_cons_self t ts))
    obtain ⟨ls, hls⟩ := ih (fun t' ht' => h t' (List.mem_cons_of_mem _ ht'))
    exact ⟨tc.users :: ls, by simp [resolveTeams, htc, hls]⟩

lemma resolveTeams_mem (teams : List (String × TeamConfiguration)) (u : String) :
    ∀ (ts : List String) (ls : List (List String)), resolveTeams teams ts = some ls →
      ((∃ l ∈ ls, u ∈ l) ↔
        ∃ t ∈ ts, ∃ tc, lookupTeam teams t = some tc ∧ u ∈ tc.users) := by
  intro ts
  induction ts with
  | nil =>
    intro ls h
    simp only [resolveTeams, Option.some.injEq] at h
    subst h
    simp
  | cons t ts ih =>
    intro ls h
    cases hl : lookupTeam teams t with
    | none => simp [resolveTeams, hl] at h
    | some tc =>
      cases hr : resolveTeams teams ts with
      | none => simp [resolveTeams, hl, hr] at h
      | some ls0 =>
        simp only [resolveTeams, hl, hr, Option.some.injEq] at h
        subst h
        constructor
        · rintro ⟨l, hlmem, hul⟩
          rcases List.mem_cons.mp hlmem with rfl | hlmem
          · exact ⟨t, List.mem_cons_self t ts, tc, hl, hul⟩
          · obtain ⟨t0, ht0, tc0, htc0, hu0⟩ := (ih ls0 hr).mp ⟨l, hlmem, hul⟩
            exact ⟨t0, List.mem_cons_of_mem _ ht0, tc0, htc0, hu0⟩
        · rintro ⟨t0, ht0, tc0, htc0, hu0⟩
          rcases List.mem_cons.mp ht0 with rfl | ht0
          · rw [hl] at htc0
            injection htc0 with heq
            subst heq
            exact ⟨tc.users, List.mem_cons_self _ _, hu0⟩
          · obtain ⟨l, hlmem, hul⟩ := (ih ls0 hr).mpr ⟨t0, ht0, tc0, htc0, hu0⟩
            exact ⟨l, List.mem_cons_of_mem _ hlmem, hul⟩

lemma mem_foldl_append (u : String) :
    ∀ (ls : List (List String)) (init : List String),
      u ∈ ls.foldl (fun left right => left ++ right) init ↔
        u ∈ init ∨ ∃ l ∈ ls, u ∈ l := by
  intro ls
  induction ls with
  | nil => simp
  | cons l ls ih =>
    intro init
    rw [List.foldl_cons, ih]
    constructor
    · rintro (h | ⟨l0, hl0, hu⟩)
      · rcases List.mem_append.mp h with h | h
        · exact Or.inl h
        · exact Or.inr ⟨l, List.mem_cons_self l ls, h⟩
      · exact Or.inr ⟨l0, List.mem_cons_of_mem _ hl0, hu⟩
    · rintro (h | ⟨l0, hl0, hu⟩)
      · exact Or.inl (List.mem_append.mpr (Or.inl h))
      · rcases List.mem_cons.mp hl0 with rfl | hl0
        · exact Or.inl (List.mem_append.mpr (Or.inr hu))
        · exact Or.inr ⟨l0, hl0, hu⟩

lemma getPossibleApprovers_eq_some_iff_mem (conf : ReviewerConfiguration)
    (teams : List (String × TeamConfiguration)) (s : Finset String)
    (h : getPossibleApprovers conf teams = some s) (u : String) :
    (u ∈ s ↔ u ∈ conf.users.getD [] ∨
      ∃ t ∈ conf.teams.getD [], ∃ tc, lookupTeam teams t = some tc ∧ u ∈ tc.users) := by
  cases hr : resolveTeams teams (conf.teams.getD []) with
  | none => simp [getPossibleApprovers, hr] at h
  | some ls =>
    simp only [getPossibleApprovers, hr, Option.some.injEq] at h
    subst h
    rw [List.mem_toFinset, List.mem_append, mem_foldl_append]
    simp only [List.not_mem_nil, false_or]
    rw [resolveTeams_mem teams u _ _ hr]

lemma getPossibleApprovers_isSome_of (conf : ReviewerConfiguration)
    (teams : List (String × TeamConfiguration))
    (h : ∀ t ∈ conf.teams.getD [], (lookupTeam teams t).isSome) :
    ∃ s, getPossibleApprovers conf teams = some s := by
  obtain ⟨ls, hls⟩ := resolveTeams_isSome teams _ h
  exact ⟨(conf.users.getD [] ++ ls.foldl (fun left right => left ++ right) []).toFinset,
    by simp only [getPossibleApprovers, hls]⟩

lemma getPossibleApprovers_eq_none_of (conf : ReviewerConfiguration)
    (teams : List (String × TeamConfiguration)) (t : String)
    (ht : t ∈ conf.teams.getD []) (hnone : lookupTeam teams t = none) :
    getPossibleApprovers conf teams = none := by
  simp [getPossibleApprovers, resolveTeams_eq_none teams t _ ht hnone]

lemma checkGo_eq_none (teams : List (String × TeamConfiguration)) (files apps : List String) :
    ∀ (rules : List (String × ReviewerConfiguration)) (pr : String × ReviewerConfiguration),
      pr ∈ rules → (∃ f ∈ files, strStartsWith f pr.1 = true) →
      getPossibleApprovers pr.2 teams = none →
      ∀ acc : Bool, checkGo teams files apps rules acc = none := by
  intro rules
  induction rules with
  | nil => intro pr h; cases h
  | cons hd rules ih =>
    intro pr hmem hmatch hnone acc
    rcases List.mem_cons.mp hmem with rfl | hmemtl
    · obtain ⟨f, hf, hsw⟩ := hmatch
      have hpos : 0 < (files.filter (fun file => strStartsWith file pr.1)).length :=
        (length_filter_pos_iff _ _).mpr ⟨f, hf, hsw⟩
      obtain ⟨pfx, conf⟩ := pr
      simp only [checkGo, hpos, if_true, hnone]
    · obtain ⟨pfx, conf⟩ := hd
      simp only [checkGo]
      by_cases hp : 0 < (files.filter (fun file => strStartsWith file pfx)).length
      · cases hg : getPossibleApprovers conf teams with
        | none => simp [hp, hg]
        | some s =>
          by_cases hc :
              (apps.filter (fun u => decide (u ∈ s))).length < conf.requiredApproverCount <;>
            simp [hp, hg, hc, ih pr hmemtl hmatch hnone]
      · simp [hp, ih pr hmemtl hmatch hnone]

/-! ## Claim theorems: approver-set resolution -/

/-- C5: when every team named by a rule exists in the team mapping,
`getPossibleApprovers` succeeds and returns exactly the set union of
the rule's named users and the member sets of its named teams; the
result is a `Finset`, so duplicate user entries and overlapping team
memberships collapse and declaration order and multiplicity are
irrelevant. -/
theorem getPossibleApprovers_eq_union (conf : ReviewerConfiguration)
    (teams : List (String × TeamConfiguration))
    (h : ∀ t ∈ conf.teams.getD [], (lookupTeam teams t).isSome) :
    ∃ s, getPossibleApprovers conf teams = some s ∧
      ∀ u : String, (u ∈ s ↔ u ∈ conf.users.getD [] ∨
        ∃ t ∈ conf.teams.getD [], ∃ tc, lookupTeam teams t = some tc ∧ u ∈ tc.users) := by
  obtain ⟨s, hs⟩ := getPossibleApprovers_isSome_of conf teams h
  exact ⟨s, hs, getPossibleApprovers_eq_some_iff_mem conf teams s hs⟩

/-- Witness for C5: a rule with duplicate named users and overlapping
team memberships, all named teams present. -/
theorem getPossibleApprovers_eq_union_witness :
    ∃ s, getPossibleApprovers
        ⟨none, some ["t1", "t2"], some ["alice", "bob", "alice"], 2⟩
        [("t1", ⟨none, ["bob", "carol"]⟩), ("t2", ⟨none, ["carol"]⟩)] = some s ∧
      ∀ u : String,
        (u ∈ s ↔
          u ∈ (ReviewerConfiguration.users
            ⟨none, some ["t1", "t2"], some ["alice", "bob", "alice"], 2⟩).getD [] ∨
          ∃ t ∈ (ReviewerConfiguration.teams
            ⟨none, some ["t1", "t2"], some ["alice", "bob", "alice"], 2⟩).getD [],
            ∃ tc, lookupTeam [("t1", ⟨none, ["bob", "carol"]⟩), ("t2", ⟨none, ["carol"]⟩)] t
              = some tc ∧ u ∈ tc.users) :=
  getPossibleApprovers_eq_union
    ⟨none, some ["t1", "t2"], some ["alice", "bob", "alice"], 2⟩
    [("t1", ⟨none, ["bob", "carol"]⟩), ("t2", ⟨none, ["carol"]⟩)] (by decide)

/-- C3: a rule naming a team absent from the team mapping makes
approver-set resolution fail (`none`, the thrown configuration error)
rather than treating the team as empty, and when such a rule is in the
policy and its prefix matches a modified file, `check` produces no
verdict at all. -/
theorem missing_team_raises_and_no_verdict
    (tms : Option (List (String × TeamConfiguration)))
    (ov : Option (List OverrideCriteria))
    (rules : List (String × ReviewerConfiguration))
    (pr : String × ReviewerConfiguration) (t : String) (files apps : List String)
    (hrule : pr ∈ rules) (ht : t ∈ pr.2.teams.getD [])
    (hmissing : lookupTeam (tms.getD []) t = none)
    (hmatch : ∃ f ∈ files, strStartsWith f pr.1 = true) :
    getPossibleApprovers pr.2 (tms.getD []) = none ∧
      check ⟨tms, rules, ov⟩ files apps = none := by
  have hnone := getPossibleApprovers_eq_none_of pr.2 (tms.getD []) t ht hmissing
  exact ⟨hnone, checkGo_eq_none (tms.getD []) files apps rules pr hrule hmatch hnone true⟩

/-- Witness for C3: Scenario E, a rule referencing the absent team
`core-team`. -/
theorem missing_team_raises_and_no_verdict_witness :
    getPossibleApprovers ⟨none, some ["core-team"], none, 1⟩
        ((none : Option (List (String × TeamConfiguration))).getD []) = none ∧
      check ⟨none, [("src/", ⟨none, some ["core-team"], none, 1⟩)], none⟩
        ["src/a.ts"] ["bob"] = none :=
  missing_team_raises_and_no_verdict none none
    [("src/", ⟨none, some ["core-team"], none, 1⟩)]
    ("src/", ⟨none, some ["core-team"], none, 1⟩) "core-team" ["src/a.ts"] ["bob"]
    (List.mem_singleton.mpr rfl) (by decide) rfl ⟨"src/a.ts", by simp, by decide⟩

/-! ## Claim theorems: rule evaluation -/

lemma checkGo_eq_some_true_iff (teams : List (String × TeamConfiguration))
    (files apps : List String) :
    ∀ (rules : List (String × ReviewerConfiguration)) (acc : Bool),
      checkGo teams files apps rules acc = some true ↔
        (acc = true ∧ ∀ pr ∈ rules, (∃ f ∈ files, strStartsWith f pr.1 = true) →
          ∃ s, getPossibleApprovers pr.2 teams = some s ∧
            pr.2.requiredApproverCount ≤ (apps.filter (fun u => decide (u ∈ s))).length) := by
  intro rules
  induction rules with
  | nil => intro acc; simp [checkGo]
  | cons hd rules ih =>
    intro acc
    obtain ⟨pfx, conf⟩ := hd
    by_cases hp : 0 < (files.filter (fun file => strStartsWith file pfx)).length
    · have hmatch : ∃ f ∈ files, strStartsWith f pfx = true :=
        (length_filter_pos_iff _ _).mp hp
      cases hg : getPossibleApprovers conf teams with
      | none =>
        simp only [checkGo, hp, if_true, hg]
        constructor
        · intro h; cases h
        · rintro ⟨-, hall⟩
          obtain ⟨s, hs, -⟩ := hall (pfx, conf) (List.mem_cons_self _ _) hmatch
          rw [hg] at hs; cases hs
      | some s =>
        by_cases hc :
            (apps.filter (fun u => decide (u ∈ s))).length < conf.requiredApproverCount
        · simp only [checkGo, hp, if_true, hg, hc, if_true]
          rw [ih false]
          constructor
          · rintro ⟨h, -⟩; cases h
          · rintro ⟨-, hall⟩
            obtain ⟨s0, hs0, hle⟩ := hall (pfx, conf) (List.mem_cons_self _ _) hmatch
            rw [hg] at hs0
            injection hs0 with hseq
            subst hseq
            exact absurd hle (Nat.not_le.mpr hc)
        · simp only [checkGo, hp, if_true, hg, hc, if_false]
          rw [ih acc]
          constructor
          · rintro ⟨hacc, hall⟩
            refine ⟨hacc, ?_⟩
            intro pr hpr hm
            rcases List.mem_cons.mp hpr with rfl | hpr
            · exact ⟨s, hg, Nat.le_of_not_lt hc⟩
            · exact hall pr hpr hm
          · rintro ⟨hacc, hall⟩
            exact ⟨hacc, fun pr hpr hm => hall pr (List.mem_cons_of_mem _ hpr) hm⟩
    · have hnomatch : ¬ ∃ f ∈ files, strStartsWith f pfx = true := by
        rw [← length_filter_pos_iff]; exact hp
      simp only [checkGo, hp, if_false]
      rw [ih acc]
      constructor
      · rintro ⟨hacc, hall⟩
        refine ⟨hacc, ?_⟩
        intro pr hpr hm
        rcases List.mem_cons.mp hpr with rfl | hpr
        · exact absurd hm hnomatch
        · exact hall pr hpr hm
      · rintro ⟨hacc, hall⟩
        exact ⟨hacc, fun pr hpr hm => hall pr (List.mem_cons_of_mem _ hpr) hm⟩

/-- C1: `check` returns `some true` exactly when every rule of the
reviewers mapping whose path prefix literally starts at least one
modified file path has at least `requiredApproverCount` approvals lying
in its resolved approver set; rules matching no modified file impose no
constraint (they are absent from the right-hand side's guard). -/
theorem check_true_iff_all_matched_rules_satisfied (cfg : Reviewers)
    (files apps : List String) :
    check cfg files apps = some true ↔
      ∀ pr ∈ cfg.reviewers, (∃ f ∈ files, strStartsWith f pr.1 = true) →
        ∃ s, getPossibleApprovers pr.2 (cfg.teams.getD []) = some s ∧
          pr.2.requiredApproverCount ≤ (apps.filter (fun u => decide (u ∈ s))).length := by
  unfold check
  rw [checkGo_eq_some_true_iff]
  simp

/-- C7: a policy whose reviewers mapping is empty approves every change,
whatever the modified files and approvals are. -/
theorem check_empty_reviewers_true (tms : Option (List (String × TeamConfiguration)))
    (ov : Option (List OverrideCriteria)) (files apps : List String) :
    check ⟨tms, [], ov⟩ files apps = some true := rfl

lemma checkGo_skip_zero_rule (teams : List (String × TeamConfiguration))
    (files apps : List String) (pfx : String) (conf : ReviewerConfiguration)
    (h0 : conf.requiredApproverCount = 0)
    (hs : ∃ s, getPossibleApprovers conf teams = some s) :
    ∀ (l1 l2 : List (String × ReviewerConfiguration)) (acc : Bool),
      checkGo teams files apps (l1 ++ (pfx, conf) :: l2) acc =
        checkGo teams files apps (l1 ++ l2) acc := by
  intro l1
  induction l1 with
  | nil =>
    intro l2 acc
    obtain ⟨s, hg⟩ := hs
    simp only [List.nil_append, checkGo, hg, h0]
    by_cases hp : 0 < (files.filter (fun file => strStartsWith file pfx)).length
    · simp [hp, Nat.not_lt_zero]
    · simp [hp]
  | cons hd l1 ih =>
    intro l2 acc
    obtain ⟨pfx0, conf0⟩ := hd
    simp only [List.cons_append, checkGo]
    by_cases hp : 0 < (files.filter (fun file => strStartsWith file pfx0)).length
    · cases hg : getPossibleApprovers conf0 teams with
      | none => simp [hp, hg]
      | some s0 =>
        by_cases hc :
            (apps.filter (fun u => decide (u ∈ s0))).length < conf0.requiredApproverCount <;>
          simp [hp, hg, hc, ih]
    · simp [hp, ih]

/-- C8: a rule with `requiredApproverCount = 0` whose prefix matches at
least one modified file is satisfied no matter what the approvals are,
and inserting (or removing) such a rule anywhere in the reviewers
mapping never changes the result of `check` — in particular it never
makes `check` return `some false`. -/
theorem zero_required_rule_passes_and_never_blocks
    (tms : Option (List (String × TeamConfiguration)))
    (ov : Option (List OverrideCriteria))
    (l1 l2 : List (String × ReviewerConfiguration))
    (pfx : String) (conf : ReviewerConfiguration) (files apps : List String)
    (h0 : conf.requiredApproverCount = 0)
    (hs : ∃ s, getPossibleApprovers conf (tms.getD []) = some s)
    (_hmatch : ∃ f ∈ files, strStartsWith f pfx = true) :
    (∃ s, getPossibleApprovers conf (tms.getD []) = some s ∧
      conf.requiredApproverCount ≤ (apps.filter (fun u => decide (u ∈ s))).length) ∧
    check ⟨tms, l1 ++ (pfx, conf) :: l2, ov⟩ files apps =
      check ⟨tms, l1 ++ l2, ov⟩ files apps := by
  obtain ⟨s, hg⟩ := hs
  refine ⟨⟨s, hg, ?_⟩, ?_⟩
  · rw [h0]; exact Nat.zero_le _
  · unfold check
    exact checkGo_skip_zero_rule (tms.getD []) files apps pfx conf h0 ⟨s, hg⟩ l1 l2 true

/-- Witness for C8: a matched zero-requirement rule with no approvals
at all. -/
theorem zero_required_rule_passes_and_never_blocks_witness :
    (∃ s, getPossibleApprovers ⟨none, none, some ["alice"], 0⟩ [] = some s ∧
      0 ≤ (([] : List String).filter (fun u => decide (u ∈ s))).length) ∧
    check ⟨none, [("src/", ⟨none, none, some ["alice"], 0⟩)], none⟩ ["src/a.ts"] [] =
      check ⟨none, ([] : List (String × ReviewerConfiguration)), none⟩ ["src/a.ts"] [] :=
  zero_required_rule_passes_and_never_blocks none none [] [] "src/"
    ⟨none, none, some ["alice"], 0⟩ ["src/a.ts"] [] rfl ⟨_, rfl⟩
    ⟨"src/a.ts", by simp, by decide⟩

/-! ## Claim theorems: override evaluation and final verdict -/

lemma committerOk_iff (allowed : List String) (u : Option String) :
    ((match u with
      | some v => decide (v ∈ allowed)
      | none => false) = true) ↔ ∃ name, u = some name ∧ name ∈ allowed := by
  cases u <;> simp

lemma checkOverride_exists_iff (rt : String → String → Bool)
    (ovs : List OverrideCriteria) (files : List String)
    (comms : List (Option String)) :
    checkOverride rt ovs files comms = true ↔
      ∃ crit ∈ ovs, checkOverride rt [crit] files comms = true := by
  unfold checkOverride
  simp [List.any_eq_true]

lemma checkOverride_singleton_iff (rt : String → String → Bool)
    (files : List String) (comms : List (Option String))
    (crit : OverrideCriteria) :
    checkOverride rt [crit] files comms = true ↔
      ((∀ allowed, crit.onlyModifiedByUsers = some allowed →
        ∀ u ∈ comms, ∃ name, u = some name ∧ name ∈ allowed) ∧
       (∀ pats, crit.onlyModifiedFileRegExs = some pats →
        ∀ f ∈ files, ∃ p ∈ pats, rt p f = true)) := by
  unfold checkOverride
  simp only [List.any_cons, List.any_nil, Bool.or_false]
  cases hA : crit.onlyModifiedByUsers with
  | none =>
    cases hB : crit.onlyModifiedFileRegExs with
    | none => simp [hA, hB]
    | some pats => simp [hA, hB, List.all_eq_true, List.any_eq_true]
  | some allowed =>
    cases hB : crit.onlyModifiedFileRegExs with
    | none => simp [hA, hB, List.all_eq_true, committerOk_iff]
    | some pats =>
      simp [hA, hB, List.all_eq_true, List.any_eq_true, committerOk_iff]

/-- C2: `checkOverride` returns true exactly when at least one override
entry has all of its present clauses satisfied — OR across entries, AND
across an entry's clauses; the `onlyModifiedByUsers` clause demands
every committer be resolved and allow-listed, the
`onlyModifiedFileRegExs` clause demands every modified file match some
pattern, an absent clause constrains nothing — and `checkOverride` of
an empty override list is false. -/
theorem checkOverride_true_iff_entry_satisfied (rt : String → String → Bool)
    (ovs : List OverrideCriteria) (files : List String)
    (comms : List (Option String)) :
    (checkOverride rt ovs files comms = true ↔
      ∃ crit ∈ ovs,
        (∀ allowed, crit.onlyModifiedByUsers = some allowed →
          ∀ u ∈ comms, ∃ name, u = some name ∧ name ∈ allowed) ∧
        (∀ pats, crit.onlyModifiedFileRegExs = some pats →
          ∀ f ∈ files, ∃ p ∈ pats, rt p f = true)) ∧
    checkOverride rt [] files comms = false := by
  refine ⟨?_, rfl⟩
  rw [checkOverride_exists_iff]
  constructor
  · rintro ⟨crit, hc, hb⟩
    exact ⟨crit, hc, (checkOverride_singleton_iff rt files comms crit).mp hb⟩
  · rintro ⟨crit, hc, hcls⟩
    exact ⟨crit, hc, (checkOverride_singleton_iff rt files comms crit).mpr hcls⟩

/-- C9: with an empty committer list the `onlyModifiedByUsers` clause is
vacuously satisfied, and with an empty modified-file list the
`onlyModifiedFileRegExs` clause is vacuously satisfied; an override
entry each of whose present clauses quantifies over an empty input list
therefore waives the failure, although nothing was checked against the
allow-lists. -/
theorem override_entry_with_empty_inputs_waives (rt : String → String → Bool)
    (ovs : List OverrideCriteria) (crit : OverrideCriteria)
    (files : List String) (comms : List (Option String))
    (hc : crit ∈ ovs)
    (h1 : crit.onlyModifiedByUsers = none ∨ comms = [])
    (h2 : crit.onlyModifiedFileRegExs = none ∨ files = []) :
    checkOverride rt ovs files comms = true := by
  rw [checkOverride_exists_iff]
  refine ⟨crit, hc, ?_⟩
  rw [checkOverride_singleton_iff]
  constructor
  · intro allowed hA u hu
    rcases h1 with h1 | rfl
    · rw [h1] at hA; cases hA
    · cases hu
  · intro pats hB f hf
    rcases h2 with h2 | rfl
    · rw [h2] at hB; cases hB
    · cases hf

/-- Witness for C9: an override entry with both clauses present but an
empty change (no modified files, no committers) waives the failure. -/
theorem override_entry_with_empty_inputs_waives_witness :
    checkOverride (fun _ _ => false) [⟨none, some ["bot"], some ["docs"]⟩] [] [] = true :=
  override_entry_with_empty_inputs_waives (fun _ _ => false)
    [⟨none, some ["bot"], some ["docs"]⟩] ⟨none, some ["bot"], some ["docs"]⟩ [] []
    (List.mem_singleton.mpr rfl) (Or.inr rfl) (Or.inr rfl)

/-- C4: the final verdict of `run` is the disjunction of rule
evaluation and override evaluation: when `check` yields `some b`, the
verdict is `b || checkOverride` on the policy's overrides, absent
overrides behaving as the empty list — so a passing `check` approves
regardless of the overrides, and a failing `check` approves exactly
when `checkOverride` does. -/
theorem runVerdict_eq_check_or_override (rt : String → String → Bool)
    (cfg : Reviewers) (files apps : List String) (comms : List (Option String))
    (b : Bool) (hb : check cfg files apps = some b) :
    runVerdict rt cfg files apps comms =
      some (b || checkOverride rt (cfg.overrides.getD []) files comms) := by
  unfold runVerdict
  rw [hb]
  cases b
  · cases hov : cfg.overrides with
    | none => simp [hov, checkOverride]
    | some ovs => simp [hov]
  · simp

/-- Witness for C4 at a policy with no rules (so `check` passes) and no
overrides. -/
theorem runVerdict_eq_check_or_override_witness :
    runVerdict (fun _ _ => false) ⟨none, [], none⟩ [] [] [] =
      some (true || checkOverride (fun _ _ => false) [] [] []) :=
  runVerdict_eq_check_or_override (fun _ _ => false) ⟨none, [], none⟩ [] [] [] true rfl

/-! ## Claim theorems: approval derivation -/

lemma lookupStatus_upsert (m : List (String × String)) (k v u : String) :
    lookupStatus (upsert m k v) u = if k = u then some v else lookupStatus m u := by
  induction m with
  | nil => simp [upsert, lookupStatus]
  | cons hd rest ih =>
    obtain ⟨k0, v0⟩ := hd
    by_cases hk : k0 = k
    · subst hk
      by_cases hu : k0 = u <;> simp [upsert, lookupStatus, hu]
    · by_cases hu : k0 = u
      · subst hu
        have hku : ¬ k = k0 := fun h => hk h.symm
        simp [upsert, lookupStatus, hk, hku]
      · simp [upsert, lookupStatus, hk, hu, ih]

lemma lookupStatus_reviewStep (m : List (String × String)) (r : Review) (u : String) :
    lookupStatus (reviewStep m r) u =
      if r.user = some u ∧ r.state ≠ "COMMENTED" then some r.state
      else lookupStatus m u := by
  obtain ⟨ru, rs⟩ := r
  cases ru with
  | none => simp [reviewStep]
  | some login =>
    by_cases hcs : rs = "COMMENTED"
    · simp [reviewStep, hcs]
    · by_cases hlu : login = u
      · subst hlu
        simp [reviewStep, hcs, lookupStatus_upsert]
      · simp [reviewStep, hcs, hlu, lookupStatus_upsert]

lemma lookupStatus_foldl (u : String) :
    ∀ (reviews : List Review) (m : List (String × String)),
      lookupStatus (reviews.foldl reviewStep m) u =
        match lastNonCommentState reviews u with
        | some s => some s
        | none => lookupStatus m u := by
  intro reviews
  induction reviews with
  | nil => intro m; simp [lastNonCommentState]
  | cons r rest ih =>
    intro m
    rw [List.foldl_cons, ih]
    cases hrest : lastNonCommentState rest u with
    | some s => simp [lastNonCommentState, hrest]
    | none =>
      simp only [lastNonCommentState, hrest]
      rw [lookupStatus_reviewStep]
      by_cases hcond : r.user = some u ∧ r.state ≠ "COMMENTED" <;> simp [hcond]

lemma lookupStatus_reviewStatusFold (reviews : List Review) (u : String) :
    lookupStatus (reviewStatusFold reviews) u = lastNonCommentState reviews u := by
  unfold reviewStatusFold
  rw [lookupStatus_foldl]
  cases lastNonCommentState reviews u <;> simp [lookupStatus]

lemma mem_keys_upsert (m : List (String × String)) (k v u : String) :
    u ∈ (upsert m k v).map Prod.fst ↔ u ∈ m.map Prod.fst ∨ u = k := by
  induction m with
  | nil => simp [upsert]
  | cons hd rest ih =>
    obtain ⟨k0, v0⟩ := hd
    by_cases hk : k0 = k
    · subst hk
      simp only [upsert]
      rw [if_true]
      simp only [List.map_cons, List.mem_cons]
      tauto
    · simp only [upsert, hk, if_false, List.map_cons, List.mem_cons, ih]
      tauto

lemma keys_nodup_upsert (m : List (String × String)) (k v : String)
    (h : (m.map Prod.fst).Nodup) : ((upsert m k v).map Prod.fst).Nodup := by
  induction m with
  | nil => simp [upsert]
  | cons hd rest ih =>
    obtain ⟨k0, v0⟩ := hd
    simp only [List.map_cons, List.nodup_cons] at h
    obtain ⟨hnot, hrest⟩ := h
    by_cases hk : k0 = k
    · subst hk
      simp only [upsert]
      rw [if_true]
      simp only [List.map_cons, List.nodup_cons]
      exact ⟨hnot, hrest⟩
    · simp only [upsert, hk, if_false, List.map_cons, List.nodup_cons]
      refine ⟨?_, ih hrest⟩
      intro hmem
      rcases (mem_keys_upsert rest k v k0).mp hmem with h | h
      · exact hnot h
      · exact hk h

lemma keys_nodup_foldl :
    ∀ (reviews : List Review) (m : List (String × String)),
      (m.map Prod.fst).Nodup → ((reviews.foldl reviewStep m).map Prod.fst).Nodup := by
  intro reviews
  induction reviews with
  | nil => intro m h; simpa using h
  | cons r rest ih =>
    intro m h
    rw [List.foldl_cons]
    apply ih
    obtain ⟨ru, rs⟩ := r
    cases ru with
    | none => simpa [reviewStep] using h
    | some login =>
      by_cases hcs : rs = "COMMENTED"
      · simpa [reviewStep, hcs] using h
      · simpa [reviewStep, hcs] using keys_nodup_upsert m login rs h

lemma mem_of_lookupStatus_eq_some (u s : String) :
    ∀ m : List (String × String), lookupStatus m u = some s → (u, s) ∈ m := by
  intro m
  induction m with
  | nil => intro h; cases h
  | cons hd rest ih =>
    obtain ⟨k, v⟩ := hd
    by_cases hk : k = u
    · subst hk
      simp only [lookupStatus]
      rw [if_true]
      intro h
      injection h with h
      subst h
      exact List.mem_cons_self _ _
    · simp only [lookupStatus, hk, if_false]
      intro h
      exact List.mem_cons_of_mem _ (ih h)

lemma lookupStatus_eq_some_of_mem (u s : String) :
    ∀ m : List (String × String), (m.map Prod.fst).Nodup → (u, s) ∈ m →
      lookupStatus m u = some s := by
  intro m
  induction m with
  | nil => intro _ h; cases h
  | cons hd rest ih =>
    obtain ⟨k, v⟩ := hd
    intro hnd hmem
    simp only [List.map_cons, List.nodup_cons] at hnd
    obtain ⟨hnot, hrest⟩ := hnd
    rcases List.mem_cons.mp hmem with heq | hmem
    · injection heq with h1 h2
      subst h1
      subst h2
      simp [lookupStatus]
    · have hku : ¬ k = u := by
        intro h
        subst h
        exact hnot (List.mem_map_of_mem Prod.fst hmem)
      simp only [lookupStatus, hku, if_false]
      exact ih hrest hmem

lemma approvals_filterMap_sublist :
    ∀ m : List (String × String),
      (m.filterMap (fun kv => if kv.2 = "APPROVED" then some kv.1 else none)).Sublist
        (m.map Prod.fst) := by
  intro m
  induction m with
  | nil => simp
  | cons hd rest ih =>
    obtain ⟨k, v⟩ := hd
    by_cases hv : v = "APPROVED"
    · simpa [List.filterMap_cons, hv] using ih.cons₂ k
    · simpa [List.filterMap_cons, hv] using ih.cons k

lemma mem_getApprovals_iff_lookup (reviews : List Review) (u : String) :
    u ∈ getApprovals reviews ↔
      lookupStatus (reviewStatusFold reviews) u = some "APPROVED" := by
  unfold getApprovals
  rw [List.mem_filterMap]
  constructor
  · rintro ⟨⟨k, v⟩, hmem, hif⟩
    by_cases hv : v = "APPROVED"
    · subst hv
      rw [if_pos rfl] at hif
      injection hif with hif
      subst hif
      have hnd : ((reviewStatusFold reviews).map Prod.fst).Nodup := by
        unfold reviewStatusFold
        exact keys_nodup_foldl reviews [] (by simp)
      exact lookupStatus_eq_some_of_mem k "APPROVED" _ hnd hmem
    · simp [hv] at hif
  · intro h
    exact ⟨(u, "APPROVED"), mem_of_lookupStatus_eq_some u "APPROVED" _ h, by simp⟩

/-- C6: a user is in the derived approvals exactly when their most
recent review whose state is not `"COMMENTED"` has state `"APPROVED"`
(later non-comment reviews override earlier ones and `"COMMENTED"`
reviews never change the recorded state), and each user contributes at
most one entry to the approvals. -/
theorem getApprovals_iff_last_noncomment_approved (reviews : List Review) (u : String) :
    (u ∈ getApprovals reviews ↔ lastNonCommentState reviews u = some "APPROVED") ∧
      (getApprovals reviews).Nodup := by
  constructor
  · rw [mem_getApprovals_iff_lookup, lookupStatus_reviewStatusFold]
  · have hnd : ((reviewStatusFold reviews).map Prod.fst).Nodup := by
      unfold reviewStatusFold
      exact keys_nodup_foldl reviews [] (by simp)
    exact (approvals_filterMap_sublist (reviewStatusFold reviews)).nodup hnd

/-- C10: a review whose user is null is ignored by approval derivation:
deleting it from the review list leaves `getApprovals` unchanged,
whatever its state is. -/
theorem null_user_review_ignored (l1 l2 : List Review) (s : String) :
    getApprovals (l1 ++ ⟨none, s⟩ :: l2) = getApprovals (l1 ++ l2) := by
  unfold getApprovals reviewStatusFold
  rw [List.foldl_append, List.foldl_cons, List.foldl_append]
  rfl

end RequiredReviews

namespace RequiredReviews

example : check ⟨none, [("src/", ⟨none, none, some ["alice", "bob"], 1⟩)], none⟩
    ["src/a.ts"] ["bob"] = some true := by decide

example : check ⟨none, [("src/", ⟨none, none, some ["alice", "bob"], 1⟩)], none⟩
    ["src/a.ts"] [] = some false := by decide

example : check ⟨none, [("src/", ⟨none, some ["core-team"], none, 1⟩)], none⟩
    ["src/a.ts"] ["bob"] = none := by decide

example : checkOverride (fun _ _ => false) [⟨none, some ["bot"], none⟩]
    ["src/a.ts"] [some "bot"] = true := by decide

example : checkOverride (fun _ _ => false) [] ["src/a.ts"] [some "bot"] = false := by
  decide

example : getApprovals
    [⟨some "a", "APPROVED"⟩, ⟨some "a", "CHANGES_REQUESTED"⟩,
     ⟨some "b", "APPROVED"⟩, ⟨some "b", "COMMENTED"⟩, ⟨none, "APPROVED"⟩] =
    ["b"] := by decide

end RequiredReviews
